import Mathlib

/-!
# Verification of libnspire's screenshot service (`src/services/screenshot.c`)

This file is a shallow embedding, in Lean 4, of the screenshot-acquisition
code of libnspire: the run-length decoder `rle_decode`, the packet
reassembly loop of `nspire_screenshot`, the fixed-layout header scan, and
the orchestration (connect / write / read / disconnect) of
`nspire_screenshot` itself.  Buffers are `List Nat` of byte values, machine
integers are `Nat`/`Int` with explicit wrap-around where the C code casts,
and the transport is an explicit oracle.  Theorems at the end settle the
specification claims against these definitions.
-/

namespace Screenshot

/-- The signed interpretation of a byte, as in the C cast `(int8_t)b`. -/
def int8 (b : Nat) : Int :=
  if b % 256 < 128 then (b % 256 : Int) else (b % 256 : Int) - 256

/-- `memcpy dst dpos src spos n` writes `src[spos..spos+n)` over
`dst[dpos..dpos+n)`, byte by byte, reading out-of-range source bytes as 0
(irrelevant in-contract) and dropping out-of-range destination writes. -/
def memcpy (dst : List Nat) (dpos : Nat) (src : List Nat) (spos : Nat) :
    Nat → List Nat
  | 0 => dst
  | n + 1 => memcpy (dst.set dpos (src.getD spos 0)) (dpos + 1) src (spos + 1) n

/-- `rle_size = (bpp * 2) / 8` — the byte size of a two-pixel group
(`screenshot.c:29`). -/
def unitOf (bpp : Nat) : Nat := (bpp * 2) / 8

/-- The mutable locals of `rle_decode`'s loop: the two cursors (as indices
into the fixed buffers), the two countdown lengths, and the output buffer
contents. -/
structure RleState where
  ipos : Nat
  opos : Nat
  in_size : Nat
  out_size : Nat
  out : List Nat
  deriving DecidableEq, Repr

/-- Why the `rle_decode` loop stopped: the `while` guard `in_size > 1`
failed, the guard `out_size` failed, or the early `return` in the repeat
branch fired. -/
inductive RleExit where
  | inputExhausted
  | outputFull
  | truncatedRepeat
  deriving DecidableEq, Repr

/-- The `for (int i = 0; i < len + 1; ++i)` repeat loop of `rle_decode`
(`screenshot.c:49-56`): each iteration stops if `out_size < rle_size`,
otherwise copies the same `rle_size`-byte group at input position `ipos`
to the output and advances only the output side.  Returns the new output
buffer, output cursor and remaining output space. -/
def repeatCopy (unit : Nat) (inp : List Nat) (ipos : Nat) :
    List Nat → Nat → Nat → Nat → List Nat × Nat × Nat
  | out, opos, out_size, 0 => (out, opos, out_size)
  | out, opos, out_size, count + 1 =>
    if out_size < unit then (out, opos, out_size)
    else repeatCopy unit inp ipos (memcpy out opos inp ipos unit) (opos + unit)
      (out_size - unit) count

/-- One iteration of the `while (in_size > 1 && out_size)` loop of
`rle_decode` (`screenshot.c:31-60`): `.inl` means the loop exits (guard
failed, or the early `return` of the repeat branch fired after consuming
the control byte), `.inr` is the state at the next loop head.  In the
literal branch (`code < 0`) the copy length is
`min (min ((-code + 1) * rle_size) out_size) in_size` with `in_size`
already decremented for the control byte; in the repeat branch the inner
`for` loop is `repeatCopy` and afterwards only the input side advances by
`rle_size`. -/
def rleStep (unit : Nat) (inp : List Nat) (s : RleState) :
    (RleState × RleExit) ⊕ RleState :=
  if s.in_size ≤ 1 then .inl (s, .inputExhausted)
  else if s.out_size = 0 then .inl (s, .outputFull)
  else
    let code := int8 (inp.getD s.ipos 0)
    if code < 0 then
      let n := min (min (((-code).toNat + 1) * unit) s.out_size) (s.in_size - 1)
      .inr ⟨s.ipos + 1 + n, s.opos + n, s.in_size - 1 - n, s.out_size - n,
        memcpy s.out s.opos inp (s.ipos + 1) n⟩
    else if s.in_size - 1 < unit then
      .inl (⟨s.ipos + 1, s.opos, s.in_size - 1, s.out_size, s.out⟩,
        .truncatedRepeat)
    else
      let r := repeatCopy unit inp (s.ipos + 1) s.out s.opos s.out_size
        (code.toNat + 1)
      .inr ⟨s.ipos + 1 + unit, r.2.1, s.in_size - 1 - unit, r.2.2, r.1⟩

/-- The `rle_decode` loop as iterated `rleStep`, with explicit fuel (the
loop runs at most `in_size` times, proved below).  `none` means the fuel
ran out. -/
def rle_runF (unit : Nat) (inp : List Nat) :
    Nat → RleState → Option (RleState × RleExit)
  | 0, _ => none
  | fuel + 1, s =>
    match rleStep unit inp s with
    | .inl r => some r
    | .inr s2 => rle_runF unit inp fuel s2

/-- Run the `rle_decode` loop to completion from a state.  Fuel
`in_size + 1` always suffices (proved below), so the default branch is
dead. -/
def rle_run (unit : Nat) (inp : List Nat) (s : RleState) : RleState × RleExit :=
  (rle_runF unit inp (s.in_size + 1) s).getD (s, .inputExhausted)

/-- `rle_decode(bpp, in, out, in_size, out_size)` (`screenshot.c:27-61`):
returns the output buffer contents after the decode loop. -/
def rle_decode (bpp : Nat) (inp out : List Nat) (in_size out_size : Nat) :
    List Nat :=
  (rle_run (unitOf bpp) inp ⟨0, 0, in_size, out_size, out⟩).1.out

/-- Little-endian 16-bit value at offset `off` of a byte buffer. -/
def le16 (buf : List Nat) (off : Nat) : Nat :=
  buf.getD off 0 + 256 * buf.getD (off + 1) 0

/-- Little-endian 32-bit value at offset `off` of a byte buffer. -/
def le32 (buf : List Nat) (off : Nat) : Nat :=
  buf.getD off 0 + 256 * buf.getD (off + 1) 0 + 65536 * buf.getD (off + 2) 0 +
    16777216 * buf.getD (off + 3) 0

/-- Modelled from the spec: `data_scan` (declared in `data.h`, body not under
`src/`) applied to the format string `"bwhhhhbb"` of `screenshot.c:81`.  Per
the spec, `b` consumes one byte, `w` a little-endian 32-bit value, `h` a
little-endian 16-bit value, and scanning fails if the buffer is shorter
than the fixed layout (15 bytes).  The `NULL` destinations of
`screenshot.c:81-82` discard fields 1, 3, 4 and 8; the kept fields are
`size` (offset 1), `width` (offset 9), `height` (offset 11) and `bpp`
(offset 13). -/
def scan_bwhhhhbb (buf : List Nat) : Option (Nat × Nat × Nat × Nat) :=
  if buf.length < 15 then none
  else some (le32 buf 1, le16 buf 9, le16 buf 11, buf.getD 13 0)

/-- The little-endian byte serialization of a 16-bit value. -/
def toLE16 (n : Nat) : List Nat := [n % 256, n / 256 % 256]

/-- The little-endian byte serialization of a 32-bit value. -/
def toLE32 (n : Nat) : List Nat :=
  [n % 256, n / 256 % 256, n / 65536 % 256, n / 16777216 % 256]

/-- The `while (size)` reassembly loop of `nspire_screenshot`
(`screenshot.c:106-114`).  Each iteration reads one packet from the
transport (`none` = failed read, a missing element = failed read), copies
`len = min maxsize size` bytes starting at byte 1 of the packet, and
decreases `size` by `len`.  Result: the assembled buffer (or `none` if a
read failed) together with the number of reads performed. -/
def readLoop (maxsize : Nat) :
    List (Option (List Nat)) → Nat → Option (List Nat) × Nat
  | _, 0 => (some [], 0)
  | [], _ + 1 => (none, 1)
  | none :: _, _ + 1 => (none, 1)
  | some p :: rs, n + 1 =>
    let len := min maxsize (n + 1)
    match readLoop maxsize rs (n + 1 - len) with
    | (some rest, k) => (some ((p.drop 1).take len ++ rest), k + 1)
    | (none, k) => (none, k + 1)

/-- The transport oracle seen by `nspire_screenshot`: the return codes of
`service_connect` and `data_write8` (0 = success), the outcomes of the
successive `data_read` calls (`none` = failure), and
`packet_max_datasize(handle)`. -/
structure Transport where
  connect_ret : Int
  write_ret : Int
  reads : List (Option (List Nat))
  pmax : Nat

/-- One observable transport operation performed by `nspire_screenshot`. -/
inductive TOp where
  | connect
  | write (b : Nat)
  | read
  | disconnect
  deriving DecidableEq, Repr

/-- `struct nspire_image`: width, height, bpp and the decoded pixel bytes. -/
structure Image where
  width : Nat
  height : Nat
  bpp : Nat
  data : List Nat
  deriving DecidableEq, Repr

/-- `nspire_screenshot` (`screenshot.c:63-126`) over the transport oracle:
connect to service 0x4024 (return the error without disconnecting on
failure), write the trigger byte 0 (`return ret` — no disconnect — on
failure), read and scan the header packet, reassemble `size` bytes, RLE
decode into a `width*height*bpp/8`-byte image.  Every path after the write
goes through `end:`, which disconnects.  Failed reads and scans are
reported with error code -1 (the concrete value of the propagated code is
irrelevant to the claims; allocation is modelled as always succeeding).
The result pairs the returned image (or error) with the exact sequence of
transport operations performed. -/
def nspire_screenshot (t : Transport) : Except Int Image × List TOp :=
  if t.connect_ret ≠ 0 then (.error t.connect_ret, [.connect])
  else if t.write_ret ≠ 0 then (.error t.write_ret, [.connect, .write 0])
  else
    match t.reads with
    | [] => (.error (-1), [.connect, .write 0, .read, .disconnect])
    | none :: _ => (.error (-1), [.connect, .write 0, .read, .disconnect])
    | some buf :: rest =>
      match scan_bwhhhhbb buf with
      | none => (.error (-1), [.connect, .write 0, .read, .disconnect])
      | some (size, w, h, bpp) =>
        let out_len := (w * h * bpp) / 8
        match readLoop (t.pmax - 1) rest size with
        | (none, k) =>
          (.error (-1),
            [.connect, .write 0, .read] ++ List.replicate k .read ++
              [.disconnect])
        | (some comp, k) =>
          (.ok ⟨w, h, bpp,
              rle_decode bpp comp (List.replicate out_len 0) size out_len⟩,
            [.connect, .write 0, .read] ++ List.replicate k .read ++
              [.disconnect])

/-- Modelled from the spec: the literal-run encoder of §8 ("encoding a known
raw buffer with a literal-run encoder"), which is test apparatus, not
repository code.  Each chunk of `2 * unit` bytes (the length requested by
control byte `-1`) is emitted as the control byte `0xFF` (= -1 signed)
followed by the chunk; a shorter final chunk relies on the decoder's input
clamp.  Structural fuel; `l.length` suffices whenever `unit ≥ 1`. -/
def rle_encodeF (unit : Nat) : Nat → List Nat → List Nat
  | _, [] => []
  | 0, _ => []
  | fuel + 1, l =>
    255 :: (l.take (2 * unit) ++ rle_encodeF unit fuel (l.drop (2 * unit)))

/-- The literal-run encoder at its natural fuel. -/
def rle_encode (unit : Nat) (l : List Nat) : List Nat :=
  rle_encodeF unit l.length l

/-! ## Lemmas about `memcpy` -/

theorem memcpy_length (src : List Nat) :
    ∀ (n : Nat) (dst : List Nat) (dpos spos : Nat),
      (memcpy dst dpos src spos n).length = dst.length := by
  intro n
  induction n with
  | zero => intro dst dpos spos; rfl
  | succ n ih => intro dst dpos spos; simp [memcpy, ih]

theorem memcpy_getD_of_lt (src : List Nat) :
    ∀ (n : Nat) (dst : List Nat) (dpos spos k : Nat), k < dpos →
      (memcpy dst dpos src spos n).getD k 0 = dst.getD k 0 := by
  intro n
  induction n with
  | zero => intro dst dpos spos k _; rfl
  | succ n ih =>
    intro dst dpos spos k hk
    rw [memcpy, ih _ _ _ _ (Nat.lt_succ_of_lt hk)]
    simp [List.getD_eq_getElem?_getD, List.getElem?_set_ne (Nat.ne_of_gt hk)]

theorem memcpy_getD_of_ge (src : List Nat) :
    ∀ (n : Nat) (dst : List Nat) (dpos spos k : Nat), dpos + n ≤ k →
      (memcpy dst dpos src spos n).getD k 0 = dst.getD k 0 := by
  intro n
  induction n with
  | zero => intro dst dpos spos k _; rfl
  | succ n ih =>
    intro dst dpos spos k hk
    rw [memcpy, ih _ _ _ _ (by omega)]
    have hne : dpos ≠ k := by omega
    simp [List.getD_eq_getElem?_getD, List.getElem?_set_ne hne]

theorem memcpy_getD_of_mem (src : List Nat) :
    ∀ (n : Nat) (dst : List Nat) (dpos spos j : Nat), j < n →
      dpos + j < dst.length →
      (memcpy dst dpos src spos n).getD (dpos + j) 0 =
        src.getD (spos + j) 0 := by
  intro n
  induction n with
  | zero => intro dst dpos spos j hj _; omega
  | succ n ih =>
    intro dst dpos spos j hj hlen
    rw [memcpy]
    cases j with
    | zero =>
      rw [memcpy_getD_of_lt src n _ (dpos + 1) _ (dpos + 0) (by omega)]
      have hd : dpos < dst.length := by omega
      simp [List.getD_eq_getElem?_getD, List.getElem?_set_self hd]
    | succ j =>
      have h1 : dpos + (j + 1) = (dpos + 1) + j := by omega
      have h2 : spos + (j + 1) = (spos + 1) + j := by omega
      rw [h1, h2, ih _ _ _ _ (by omega) (by simp; omega)]

theorem memcpy_congr_src (n : Nat) :
    ∀ (src src' dst : List Nat) (dpos spos : Nat),
      (∀ j, j < n → src.getD (spos + j) 0 = src'.getD (spos + j) 0) →
      memcpy dst dpos src spos n = memcpy dst dpos src' spos n := by
  induction n with
  | zero => intro src src' dst dpos spos _; rfl
  | succ n ih =>
    intro src src' dst dpos spos hagree
    rw [memcpy, memcpy]
    have h0 : src.getD spos 0 = src'.getD spos 0 := by
      have := hagree 0 (by omega)
      simpa using this
    rw [h0]
    exact ih _ _ _ _ _ fun j hj => by
      have := hagree (j + 1) (by omega)
      rw [show spos + (j + 1) = spos + 1 + j by omega] at this
      exact this

/-! ## Lemmas about `repeatCopy` -/

theorem repeatCopy_cursor (unit : Nat) (inp : List Nat) (ipos : Nat) :
    ∀ (count : Nat) (out : List Nat) (opos out_size : Nat),
      (repeatCopy unit inp ipos out opos out_size count).2.1 =
          opos + min count (out_size / unit) * unit ∧
        (repeatCopy unit inp ipos out opos out_size count).2.2 =
          out_size - min count (out_size / unit) * unit := by
  intro count
  induction count with
  | zero => intro out opos out_size; simp [repeatCopy]
  | succ count ih =>
    intro out opos out_size
    rw [repeatCopy]
    by_cases hlt : out_size < unit
    · have hdiv : out_size / unit = 0 := Nat.div_eq_of_lt hlt
      simp [hlt, hdiv]
    · push_neg at hlt
      have hu : 0 < unit ∨ unit = 0 := by omega
      rcases hu with hu | hu
      · have hdiv : out_size / unit = (out_size - unit) / unit + 1 := by
          rw [Nat.div_eq_sub_div hu hlt]
        rw [if_neg (by omega)]
        obtain ⟨ih1, ih2⟩ := ih (memcpy out opos inp ipos unit) (opos + unit)
          (out_size - unit)
        rw [ih1, ih2]
        have hmin : min (count + 1) (out_size / unit) =
            min count ((out_size - unit) / unit) + 1 := by
          rw [hdiv, Nat.succ_min_succ]
        rw [hmin]
        have hle : (min count ((out_size - unit) / unit)) * unit ≤
            out_size - unit := by
          calc (min count ((out_size - unit) / unit)) * unit
              ≤ ((out_size - unit) / unit) * unit :=
                Nat.mul_le_mul_right _ (Nat.min_le_right _ _)
            _ ≤ out_size - unit := Nat.div_mul_le_self _ _
        constructor
        · ring
        · have : (min count ((out_size - unit) / unit) + 1) * unit =
              min count ((out_size - unit) / unit) * unit + unit := by ring
          omega
      · subst hu
        rw [if_neg (by omega)]
        obtain ⟨ih1, ih2⟩ := ih (memcpy out opos inp ipos 0) (opos + 0)
          (out_size - 0)
        simp only [Nat.div_zero, Nat.min_zero, Nat.zero_mul, Nat.add_zero,
          Nat.sub_zero, memcpy] at ih1 ih2 ⊢
        exact ⟨ih1, ih2⟩

theorem repeatCopy_getD_out (unit : Nat) (inp : List Nat) (ipos : Nat) :
    ∀ (count : Nat) (out : List Nat) (opos out_size k : Nat),
      (k < opos ∨ opos + min count (out_size / unit) * unit ≤ k) →
      (repeatCopy unit inp ipos out opos out_size count).1.getD k 0 =
        out.getD k 0 := by
  intro count
  induction count with
  | zero => intro out opos out_size k _; rfl
  | succ count ih =>
    intro out opos out_size k hk
    rw [repeatCopy]
    by_cases hlt : out_size < unit
    · simp [hlt]
    · push_neg at hlt
      rw [if_neg (by omega)]
      have hu : 0 < unit ∨ unit = 0 := by omega
      rcases hu with hu | hu
      · have hdiv : out_size / unit = (out_size - unit) / unit + 1 := by
          rw [Nat.div_eq_sub_div hu hlt]
        have hmin : min (count + 1) (out_size / unit) =
            min count ((out_size - unit) / unit) + 1 := by
          rw [hdiv, Nat.succ_min_succ]
        rw [hmin] at hk
        have hk2 : k < opos + unit ∨
            (opos + unit) + min count ((out_size - unit) / unit) * unit ≤ k := by
          rcases hk with hk | hk
          · left; omega
          · right
            have : (min count ((out_size - unit) / unit) + 1) * unit =
                unit + min count ((out_size - unit) / unit) * unit := by ring
            omega
        rw [ih _ _ _ _ hk2]
        rcases hk with hk | hk
        · exact memcpy_getD_of_lt inp unit out opos ipos k hk
        · refine memcpy_getD_of_ge inp unit out opos ipos k ?_
          have hexp : (min count ((out_size - unit) / unit) + 1) * unit =
              min count ((out_size - unit) / unit) * unit + unit := by ring
          rw [hexp] at hk
          omega
      · subst hu
        simp only [memcpy, Nat.add_zero, Nat.sub_zero]
        have hk2 : k < opos ∨ opos + min count (out_size / 0) * 0 ≤ k := by
          simp; omega
        exact ih _ _ _ _ hk2

theorem repeatCopy_getD_in (unit : Nat) (inp : List Nat) (ipos : Nat) :
    ∀ (count : Nat) (out : List Nat) (opos out_size : Nat),
      opos + out_size ≤ out.length →
      ∀ i, i < min count (out_size / unit) → ∀ j, j < unit →
      (repeatCopy unit inp ipos out opos out_size count).1.getD
          (opos + i * unit + j) 0 = inp.getD (ipos + j) 0 := by
  intro count
  induction count with
  | zero => intro out opos out_size _ i hi; omega
  | succ count ih =>
    intro out opos out_size hlen i hi j hj
    have hu : 0 < unit := by omega
    rw [repeatCopy]
    by_cases hlt : out_size < unit
    · rw [Nat.div_eq_of_lt hlt] at hi; omega
    · push_neg at hlt
      rw [if_neg (by omega)]
      have hdiv : out_size / unit = (out_size - unit) / unit + 1 := by
        rw [Nat.div_eq_sub_div hu hlt]
      have hmin : min (count + 1) (out_size / unit) =
          min count ((out_size - unit) / unit) + 1 := by
        rw [hdiv, Nat.succ_min_succ]
      rw [hmin] at hi
      cases i with
      | zero =>
        rw [repeatCopy_getD_out unit inp ipos count _ (opos + unit)
          (out_size - unit) _ (Or.inl (by omega))]
        have hd : opos + j < out.length := by omega
        have := memcpy_getD_of_mem inp unit out opos ipos j hj hd
        simpa using this
      | succ i =>
        have heq : opos + (i + 1) * unit + j = (opos + unit) + i * unit + j := by
          ring
        rw [heq]
        refine ih _ _ _ ?_ i (by omega) j hj
        rw [memcpy_length]
        omega

theorem repeatCopy_congr_src (unit : Nat) (inp inp' : List Nat) (ipos : Nat)
    (hagree : ∀ j, j < unit → inp.getD (ipos + j) 0 = inp'.getD (ipos + j) 0) :
    ∀ (count : Nat) (out : List Nat) (opos out_size : Nat),
      repeatCopy unit inp ipos out opos out_size count =
        repeatCopy unit inp' ipos out opos out_size count := by
  intro count
  induction count with
  | zero => intro out opos out_size; rfl
  | succ count ih =>
    intro out opos out_size
    rw [repeatCopy, repeatCopy]
    by_cases hlt : out_size < unit
    · simp [hlt]
    · rw [if_neg hlt, if_neg hlt,
        memcpy_congr_src unit inp inp' out opos ipos hagree, ih]

theorem repeatCopy_length (unit : Nat) (inp : List Nat) (ipos : Nat) :
    ∀ (count : Nat) (out : List Nat) (opos out_size : Nat),
      (repeatCopy unit inp ipos out opos out_size count).1.length =
        out.length := by
  intro count
  induction count with
  | zero => intro out opos out_size; rfl
  | succ count ih =>
    intro out opos out_size
    rw [repeatCopy]
    by_cases hlt : out_size < unit
    · simp [hlt]
    · rw [if_neg hlt, ih]
      exact memcpy_length inp unit out opos ipos

/-! ## Lemmas about `rleStep` and the loop -/

theorem rleStep_inr_lt {unit : Nat} {inp : List Nat} {s s' : RleState}
    (h : rleStep unit inp s = .inr s') : s'.in_size < s.in_size := by
  simp only [rleStep] at h
  split_ifs at h with h1 h2 h3 h4 <;>
    · cases Sum.inr.inj h
      dsimp only
      omega

theorem rleStep_inl_spec {unit : Nat} {inp : List Nat} {s t : RleState}
    {e : RleExit} (h : rleStep unit inp s = .inl (t, e)) :
    t.out = s.out ∧ t.opos = s.opos ∧ t.out_size = s.out_size ∧
      (e = .inputExhausted → t.in_size ≤ 1) ∧
      (e = .outputFull → t.out_size = 0) ∧
      (e = .truncatedRepeat → t.in_size < unit) := by
  simp only [rleStep] at h
  split_ifs at h with h1 h2 h3 h4 <;>
    · cases Sum.inl.inj h
      refine ⟨rfl, rfl, rfl, ?_, ?_, ?_⟩ <;> intro he <;>
        first
          | ((try dsimp only); omega)
          | cases he

theorem rleStep_inr_bounds {unit : Nat} {inp : List Nat} {s s' : RleState}
    (h : rleStep unit inp s = .inr s') :
    s'.out.length = s.out.length ∧ s.opos ≤ s'.opos ∧
      s'.opos + s'.out_size ≤ s.opos + s.out_size ∧
      ∀ k, (k < s.opos ∨ s.opos + s.out_size ≤ k) →
        s'.out.getD k 0 = s.out.getD k 0 := by
  simp only [rleStep] at h
  split_ifs at h with h1 h2 h3 h4
  · cases Sum.inr.inj h
    dsimp only
    refine ⟨memcpy_length inp _ s.out s.opos (s.ipos + 1), by omega, by omega,
      ?_⟩
    intro k hk
    rcases hk with hk | hk
    · exact memcpy_getD_of_lt inp _ s.out s.opos (s.ipos + 1) k hk
    · exact memcpy_getD_of_ge inp _ s.out s.opos (s.ipos + 1) k (by omega)
  · cases Sum.inr.inj h
    dsimp only
    obtain ⟨hc1, hc2⟩ := repeatCopy_cursor unit inp (s.ipos + 1)
      ((int8 (inp.getD s.ipos 0)).toNat + 1) s.out s.opos s.out_size
    have hmul : min ((int8 (inp.getD s.ipos 0)).toNat + 1)
        (s.out_size / unit) * unit ≤ s.out_size := by
      calc min ((int8 (inp.getD s.ipos 0)).toNat + 1) (s.out_size / unit) * unit
          ≤ (s.out_size / unit) * unit :=
            Nat.mul_le_mul_right _ (Nat.min_le_right _ _)
        _ ≤ s.out_size := Nat.div_mul_le_self _ _
    refine ⟨repeatCopy_length unit inp (s.ipos + 1) _ s.out s.opos s.out_size,
      ?_, ?_, ?_⟩
    · rw [hc1]; omega
    · rw [hc1, hc2]; omega
    · intro k hk
      refine repeatCopy_getD_out unit inp (s.ipos + 1) _ s.out s.opos
        s.out_size k ?_
      rcases hk with hk | hk
      · exact Or.inl hk
      · exact Or.inr (by omega)

theorem rleStep_inr_iwindow {unit : Nat} {inp : List Nat} {s s' : RleState}
    (h : rleStep unit inp s = .inr s') :
    s.ipos ≤ s'.ipos ∧ s'.ipos + s'.in_size ≤ s.ipos + s.in_size := by
  simp only [rleStep] at h
  split_ifs at h with h1 h2 h3 h4 <;>
    · cases Sum.inr.inj h
      dsimp only
      omega

theorem rleStep_congr_inp {unit : Nat} {inp inp' : List Nat} {s : RleState}
    (hagree : ∀ j, j < s.in_size →
      inp.getD (s.ipos + j) 0 = inp'.getD (s.ipos + j) 0) :
    rleStep unit inp s = rleStep unit inp' s := by
  by_cases h1 : s.in_size ≤ 1
  · simp [rleStep, h1]
  · by_cases h2 : s.out_size = 0
    · simp [rleStep, h1, h2]
    · have hbyte : inp.getD s.ipos 0 = inp'.getD s.ipos 0 := by
        have := hagree 0 (by omega)
        simpa using this
      have hagree1 : ∀ j, j < s.in_size - 1 →
          inp.getD (s.ipos + 1 + j) 0 = inp'.getD (s.ipos + 1 + j) 0 := by
        intro j hj
        have := hagree (1 + j) (by omega)
        rw [show s.ipos + (1 + j) = s.ipos + 1 + j by omega] at this
        exact this
      simp only [rleStep, if_neg h1, if_neg h2, hbyte]
      by_cases h3 : int8 (inp'.getD s.ipos 0) < 0
      · simp only [if_pos h3]
        rw [memcpy_congr_src _ inp inp' s.out s.opos (s.ipos + 1)
          (fun j hj => hagree1 j (by omega))]
      · simp only [if_neg h3]
        by_cases h4 : s.in_size - 1 < unit
        · simp only [if_pos h4]
        · simp only [if_neg h4]
          rw [repeatCopy_congr_src unit inp inp' (s.ipos + 1)
            (fun j hj => hagree1 j (by omega)) _ s.out s.opos s.out_size]

theorem rle_runF_agree (unit : Nat) (inp : List Nat) :
    ∀ (fuel1 fuel2 : Nat) (s : RleState), s.in_size < fuel1 →
      s.in_size < fuel2 →
      rle_runF unit inp fuel1 s = rle_runF unit inp fuel2 s := by
  intro fuel1
  induction fuel1 with
  | zero => intro fuel2 s h1 _; omega
  | succ f ih =>
    intro fuel2 s h1 h2
    cases fuel2 with
    | zero => omega
    | succ f2 =>
      cases hstep : rleStep unit inp s with
      | inl r => simp only [rle_runF, hstep]
      | inr s2 =>
        have hlt := rleStep_inr_lt hstep
        simp only [rle_runF, hstep]
        exact ih f2 s2 (by omega) (by omega)

theorem rle_runF_isSome (unit : Nat) (inp : List Nat) :
    ∀ (fuel : Nat) (s : RleState), s.in_size < fuel →
      (rle_runF unit inp fuel s).isSome := by
  intro fuel
  induction fuel with
  | zero => intro s h1; omega
  | succ f ih =>
    intro s h1
    cases hstep : rleStep unit inp s with
    | inl r => simp only [rle_runF, hstep, Option.isSome_some]
    | inr s2 =>
      have hlt := rleStep_inr_lt hstep
      simp only [rle_runF, hstep]
      exact ih s2 (by omega)

theorem rle_runF_eq_run (unit : Nat) (inp : List Nat) (fuel : Nat)
    (s : RleState) (h : s.in_size < fuel) :
    rle_runF unit inp fuel s = some (rle_run unit inp s) := by
  have hs := rle_runF_isSome unit inp (s.in_size + 1) s (by omega)
  obtain ⟨r, hr⟩ := Option.isSome_iff_exists.mp hs
  rw [rle_runF_agree unit inp fuel (s.in_size + 1) s h (by omega), hr]
  simp [rle_run, hr]

theorem rle_run_inl {unit : Nat} {inp : List Nat} {s : RleState}
    {r : RleState × RleExit} (hstep : rleStep unit inp s = .inl r) :
    rle_run unit inp s = r := by
  simp only [rle_run, rle_runF, hstep, Option.getD_some]

theorem rle_run_inr {unit : Nat} {inp : List Nat} {s s2 : RleState}
    (hstep : rleStep unit inp s = .inr s2) :
    rle_run unit inp s = rle_run unit inp s2 := by
  have hlt := rleStep_inr_lt hstep
  have h1 : rle_runF unit inp (s.in_size + 1) s =
      rle_runF unit inp s.in_size s2 := by
    simp only [rle_runF, hstep]
  rw [rle_run, h1, rle_runF_eq_run unit inp s.in_size s2 hlt, Option.getD_some]

theorem rle_run_out_facts (unit : Nat) (inp : List Nat) :
    ∀ (n : Nat) (s : RleState), s.in_size ≤ n →
      (rle_run unit inp s).1.out.length = s.out.length ∧
        ∀ k, (k < s.opos ∨ s.opos + s.out_size ≤ k) →
          (rle_run unit inp s).1.out.getD k 0 = s.out.getD k 0 := by
  intro n
  induction n with
  | zero =>
    intro s hn
    cases hstep : rleStep unit inp s with
    | inl r =>
      rw [rle_run_inl hstep]
      obtain ⟨ho, _⟩ := rleStep_inl_spec hstep
      exact ⟨by rw [ho], fun k _ => by rw [ho]⟩
    | inr s2 =>
      have := rleStep_inr_lt hstep
      omega
  | succ n ih =>
    intro s hn
    cases hstep : rleStep unit inp s with
    | inl r =>
      rw [rle_run_inl hstep]
      obtain ⟨ho, _⟩ := rleStep_inl_spec hstep
      exact ⟨by rw [ho], fun k _ => by rw [ho]⟩
    | inr s2 =>
      have hlt := rleStep_inr_lt hstep
      obtain ⟨hL, hop, how, hout⟩ := rleStep_inr_bounds hstep
      obtain ⟨ihL, ihout⟩ := ih s2 (by omega)
      rw [rle_run_inr hstep]
      refine ⟨by rw [ihL, hL], ?_⟩
      intro k hk
      rw [ihout k (by omega), hout k hk]

theorem rle_run_congr_inp (unit : Nat) (inp inp' : List Nat) :
    ∀ (n : Nat) (s : RleState), s.in_size ≤ n →
      (∀ j, j < s.in_size →
        inp.getD (s.ipos + j) 0 = inp'.getD (s.ipos + j) 0) →
      rle_run unit inp s = rle_run unit inp' s := by
  intro n
  induction n with
  | zero =>
    intro s hn hagree
    cases hstep : rleStep unit inp s with
    | inl r =>
      rw [rle_run_inl hstep,
        rle_run_inl ((rleStep_congr_inp hagree).symm.trans hstep)]
    | inr s2 =>
      have := rleStep_inr_lt hstep
      omega
  | succ n ih =>
    intro s hn hagree
    cases hstep : rleStep unit inp s with
    | inl r =>
      rw [rle_run_inl hstep,
        rle_run_inl ((rleStep_congr_inp hagree).symm.trans hstep)]
    | inr s2 =>
      have hlt := rleStep_inr_lt hstep
      obtain ⟨hi1, hi2⟩ := rleStep_inr_iwindow hstep
      have hstep' : rleStep unit inp' s = .inr s2 :=
        (rleStep_congr_inp hagree).symm.trans hstep
      rw [rle_run_inr hstep, rle_run_inr hstep']
      refine ih s2 (by omega) ?_
      intro j hj
      have h1 : s2.ipos + j = s.ipos + (s2.ipos - s.ipos + j) := by omega
      rw [h1]
      exact hagree _ (by omega)

theorem rle_run_exit_facts (unit : Nat) (inp : List Nat) :
    ∀ (n : Nat) (s : RleState), s.in_size ≤ n →
      ((rle_run unit inp s).2 = .inputExhausted →
        (rle_run unit inp s).1.in_size ≤ 1) ∧
      ((rle_run unit inp s).2 = .outputFull →
        (rle_run unit inp s).1.out_size = 0) ∧
      ((rle_run unit inp s).2 = .truncatedRepeat →
        (rle_run unit inp s).1.in_size < unit) := by
  intro n
  induction n with
  | zero =>
    intro s hn
    cases hstep : rleStep unit inp s with
    | inl r =>
      rw [rle_run_inl hstep]
      obtain ⟨t, e⟩ := r
      obtain ⟨_, _, _, he1, he2, he3⟩ := rleStep_inl_spec hstep
      exact ⟨he1, he2, he3⟩
    | inr s2 =>
      have := rleStep_inr_lt hstep
      omega
  | succ n ih =>
    intro s hn
    cases hstep : rleStep unit inp s with
    | inl r =>
      rw [rle_run_inl hstep]
      obtain ⟨t, e⟩ := r
      obtain ⟨_, _, _, he1, he2, he3⟩ := rleStep_inl_spec hstep
      exact ⟨he1, he2, he3⟩
    | inr s2 =>
      have hlt := rleStep_inr_lt hstep
      rw [rle_run_inr hstep]
      exact ih s2 (by omega)

theorem rleStep_literal {unit : Nat} {inp : List Nat} {s : RleState}
    (h1 : 1 < s.in_size) (h2 : 0 < s.out_size)
    (h3 : int8 (inp.getD s.ipos 0) < 0) :
    rleStep unit inp s =
      .inr ⟨s.ipos + 1 +
          min (min (((-int8 (inp.getD s.ipos 0)).toNat + 1) * unit)
            s.out_size) (s.in_size - 1),
        s.opos +
          min (min (((-int8 (inp.getD s.ipos 0)).toNat + 1) * unit)
            s.out_size) (s.in_size - 1),
        s.in_size - 1 -
          min (min (((-int8 (inp.getD s.ipos 0)).toNat + 1) * unit)
            s.out_size) (s.in_size - 1),
        s.out_size -
          min (min (((-int8 (inp.getD s.ipos 0)).toNat + 1) * unit)
            s.out_size) (s.in_size - 1),
        memcpy s.out s.opos inp (s.ipos + 1)
          (min (min (((-int8 (inp.getD s.ipos 0)).toNat + 1) * unit)
            s.out_size) (s.in_size - 1))⟩ := by
  simp only [rleStep, if_neg (by omega : ¬s.in_size ≤ 1),
    if_neg (by omega : ¬s.out_size = 0), if_pos h3]

theorem rleStep_repeat {unit : Nat} {inp : List Nat} {s : RleState}
    (h1 : 1 < s.in_size) (h2 : 0 < s.out_size)
    (h3 : 0 ≤ int8 (inp.getD s.ipos 0)) (h4 : unit ≤ s.in_size - 1) :
    rleStep unit inp s =
      .inr ⟨s.ipos + 1 + unit,
        s.opos + min ((int8 (inp.getD s.ipos 0)).toNat + 1)
          (s.out_size / unit) * unit,
        s.in_size - 1 - unit,
        s.out_size - min ((int8 (inp.getD s.ipos 0)).toNat + 1)
          (s.out_size / unit) * unit,
        (repeatCopy unit inp (s.ipos + 1) s.out s.opos s.out_size
          ((int8 (inp.getD s.ipos 0)).toNat + 1)).1⟩ := by
  obtain ⟨hc1, hc2⟩ := repeatCopy_cursor unit inp (s.ipos + 1)
    ((int8 (inp.getD s.ipos 0)).toNat + 1) s.out s.opos s.out_size
  simp only [rleStep, if_neg (by omega : ¬s.in_size ≤ 1),
    if_neg (by omega : ¬s.out_size = 0), if_neg (by omega :
      ¬int8 (inp.getD s.ipos 0) < 0), if_neg (by omega :
      ¬s.in_size - 1 < unit), hc1, hc2]

theorem rleStep_truncated {unit : Nat} {inp : List Nat} {s : RleState}
    (h1 : 1 < s.in_size) (h2 : 0 < s.out_size)
    (h3 : 0 ≤ int8 (inp.getD s.ipos 0)) (h4 : s.in_size - 1 < unit) :
    rleStep unit inp s =
      .inl (⟨s.ipos + 1, s.opos, s.in_size - 1, s.out_size, s.out⟩,
        .truncatedRepeat) := by
  simp only [rleStep, if_neg (by omega : ¬s.in_size ≤ 1),
    if_neg (by omega : ¬s.out_size = 0), if_neg (by omega :
      ¬int8 (inp.getD s.ipos 0) < 0), if_pos h4]

/-! ## Lemmas about `readLoop` -/

theorem readLoop_spec (maxsize : Nat) :
    ∀ (ps : List (List Nat)) (size : Nat) (buf : List Nat) (k : Nat),
      readLoop maxsize (ps.map some) size = (some buf, k) →
      (∀ p ∈ ps, p.length = maxsize + 1) →
      buf.length = size ∧
        buf = List.take size (List.flatten (ps.map (List.drop 1))) := by
  intro ps
  induction ps with
  | nil =>
    intro size buf k h hlen
    cases size with
    | zero =>
      simp only [List.map_nil, readLoop, Prod.mk.injEq, Option.some.injEq]
        at h
      simp [← h.1]
    | succ n =>
      simp only [List.map_nil, readLoop, Prod.mk.injEq] at h
      cases h.1
  | cons p ps ih =>
    intro size buf k h hlen
    cases size with
    | zero =>
      simp only [readLoop, Prod.mk.injEq, Option.some.injEq] at h
      simp [← h.1]
    | succ n =>
      simp only [List.map_cons, readLoop] at h
      cases hrec : readLoop maxsize (ps.map some) (n + 1 - min maxsize (n + 1))
        with
      | mk orest kr =>
        rw [hrec] at h
        cases orest with
        | none => simp at h
        | some rest =>
          simp only [Prod.mk.injEq, Option.some.injEq] at h
          obtain ⟨hbuf, hk⟩ := h
          obtain ⟨ihlen, ihval⟩ := ih (n + 1 - min maxsize (n + 1)) rest kr
            hrec (fun q hq => hlen q (List.mem_cons_of_mem _ hq))
          have hp : p.length = maxsize + 1 := hlen p (List.mem_cons_self p ps)
          have hdlen : (p.drop 1).length = maxsize := by simp [hp]
          constructor
          · rw [← hbuf]
            simp only [List.length_append, List.length_take, hdlen, ihlen]
            omega
          · rw [← hbuf, ihval]
            simp only [List.map_cons, List.flatten_cons,
              List.take_append_eq_append_take, hdlen]
            have h1 : List.take (n + 1) (p.drop 1) =
                List.take (min maxsize (n + 1)) (p.drop 1) := by
              rw [List.take_eq_take]
              rw [hdlen]
              omega
            have h2 : n + 1 - maxsize = n + 1 - min maxsize (n + 1) := by
              omega
            rw [h1, h2]

/-! ## Round trip of the literal-run encoder through the decoder -/

theorem rle_encodeF_agree (unit : Nat) (hu : 0 < unit) :
    ∀ (fuel1 fuel2 : Nat) (l : List Nat), l.length ≤ fuel1 →
      l.length ≤ fuel2 → rle_encodeF unit fuel1 l = rle_encodeF unit fuel2 l := by
  intro fuel1
  induction fuel1 with
  | zero =>
    intro fuel2 l h1 _
    have hl : l = [] := List.length_eq_zero.mp (by omega)
    subst hl
    cases fuel2 <;> rfl
  | succ f ih =>
    intro fuel2 l h1 h2
    cases l with
    | nil => cases fuel2 <;> rfl
    | cons x xs =>
      cases fuel2 with
      | zero => simp at h2
      | succ f2 =>
        simp only [rle_encodeF]
        congr 1
        congr 1
        refine ih f2 ((x :: xs).drop (2 * unit)) ?_ ?_ <;>
          · simp only [List.length_drop, List.length_cons] at *
            omega

theorem rle_encode_cons (unit : Nat) (hu : 0 < unit) (x : Nat)
    (xs : List Nat) :
    rle_encode unit (x :: xs) =
      255 :: ((x :: xs).take (2 * unit) ++
        rle_encode unit ((x :: xs).drop (2 * unit))) := by
  rw [rle_encode, rle_encode]
  simp only [List.length_cons, rle_encodeF]
  congr 1
  congr 1
  refine rle_encodeF_agree unit hu xs.length _ _ ?_ ?_ <;>
    · simp only [List.length_drop, List.length_cons]
      omega

theorem rle_roundtrip_aux (unit : Nat) (hu : 0 < unit) :
    ∀ (n : Nat) (l : List Nat), l.length ≤ n →
      ∀ (inp out : List Nat) (ipos opos : Nat),
        (∀ j, j < (rle_encode unit l).length →
          inp.getD (ipos + j) 0 = (rle_encode unit l).getD j 0) →
        opos + l.length ≤ out.length →
        ∀ j, j < l.length →
          (rle_run unit inp
            ⟨ipos, opos, (rle_encode unit l).length, l.length,
              out⟩).1.out.getD (opos + j) 0 = l.getD j 0 := by
  intro n
  induction n with
  | zero =>
    intro l hn inp out ipos opos _ _ j hj
    omega
  | succ n ih =>
    intro l hn inp out ipos opos hinp hout j hj
    rcases l with _ | ⟨x, xs⟩
    · simp at hj
    · have hE := rle_encode_cons unit hu x xs
      have hclen : ((x :: xs).take (2 * unit)).length =
          min (2 * unit) (xs.length + 1) := by
        simp [List.length_take]
      have hldlen : ((x :: xs).drop (2 * unit)).length =
          xs.length + 1 - 2 * unit := by
        simp [List.length_drop]
      have hElen : (rle_encode unit (x :: xs)).length =
          min (2 * unit) (xs.length + 1) +
            (rle_encode unit ((x :: xs).drop (2 * unit))).length + 1 := by
        rw [hE]
        simp only [List.length_cons, List.length_append, hclen]
        try omega
      have hc1 : 1 ≤ min (2 * unit) (xs.length + 1) := by omega
      have hbyte : inp.getD (ipos + 0) 0 = 255 := by
        rw [hinp 0 (by omega), hE]
        rfl
      rw [Nat.add_zero] at hbyte
      have hcode : int8 (inp.getD ipos 0) = -1 := by
        rw [hbyte]
        decide
      have h1 : 1 < (rle_encode unit (x :: xs)).length := by omega
      have h2 : 0 < (x :: xs).length := by simp
      have hstep := @rleStep_literal unit inp
        ⟨ipos, opos, (rle_encode unit (x :: xs)).length,
          (x :: xs).length, out⟩ h1 h2 (by dsimp only; rw [hcode]; decide)
      dsimp only at hstep
      rw [hcode] at hstep
      have hn_eq : min (min (((-(-1 : Int)).toNat + 1) * unit)
          ((x :: xs).length) ) ((rle_encode unit (x :: xs)).length - 1) =
            min (2 * unit) (xs.length + 1) := by
        have h2u : ((-(-1 : Int)).toNat + 1) * unit = 2 * unit := by
          norm_num
        rw [h2u]
        simp only [List.length_cons]
        omega
      rw [hn_eq] at hstep
      have hin2 : (rle_encode unit (x :: xs)).length - 1 -
          min (2 * unit) (xs.length + 1) =
            (rle_encode unit ((x :: xs).drop (2 * unit))).length := by
        omega
      have hout2 : (x :: xs).length - min (2 * unit) (xs.length + 1) =
          ((x :: xs).drop (2 * unit)).length := by
        simp only [List.length_cons, hldlen]
        omega
      rw [hin2, hout2] at hstep
      rw [rle_run_inr hstep]
      by_cases hjc : j < min (2 * unit) (xs.length + 1)
      · have hfix := (rle_run_out_facts unit inp
          (⟨ipos + 1 + min (2 * unit) (xs.length + 1),
            opos + min (2 * unit) (xs.length + 1),
            (rle_encode unit ((x :: xs).drop (2 * unit))).length,
            ((x :: xs).drop (2 * unit)).length,
            memcpy out opos inp (ipos + 1)
              (min (2 * unit) (xs.length + 1))⟩ : RleState).in_size _
            le_rfl).2 (opos + j) (Or.inl (by dsimp only; omega))
        rw [hfix]
        dsimp only
        have hmem : opos + j < out.length := by
          simp only [List.length_cons] at hout
          omega
        rw [memcpy_getD_of_mem inp _ out opos (ipos + 1) j hjc hmem]
        have hidx : ipos + 1 + j = ipos + (j + 1) := by omega
        rw [hidx, hinp (j + 1) (by omega), hE]
        simp only [List.getD_cons_succ]
        have hjtake : j < ((x :: xs).take (2 * unit)).length := by omega
        simp [List.getD_eq_getElem?_getD, List.getElem?_append_left hjtake,
          List.getElem?_take_of_lt (show j < 2 * unit by omega)]
      · push_neg at hjc
        have hc2u : min (2 * unit) (xs.length + 1) = 2 * unit := by
          simp only [List.length_cons] at hj
          omega
        have hinp2 : ∀ j2, j2 <
            (rle_encode unit ((x :: xs).drop (2 * unit))).length →
            inp.getD (ipos + 1 + min (2 * unit) (Nat.succ xs.length) + j2) 0 =
              (rle_encode unit ((x :: xs).drop (2 * unit))).getD j2 0 := by
          intro j2 hj2
          have hidx : ipos + 1 + min (2 * unit) (Nat.succ xs.length) + j2 =
              ipos + (min (2 * unit) (xs.length + 1) + j2 + 1) := by
            omega
          rw [hidx, hinp _ (by omega), hE]
          simp only [List.getD_cons_succ]
          have hge : ((x :: xs).take (2 * unit)).length ≤
              min (2 * unit) (xs.length + 1) + j2 := by omega
          simp [List.getD_eq_getElem?_getD, List.getElem?_append_right hge,
            hclen]
        have happly := ih ((x :: xs).drop (2 * unit))
          (by simp only [hldlen]; omega) inp
          (memcpy out opos inp (ipos + 1) (min (2 * unit) (xs.length + 1)))
          (ipos + 1 + min (2 * unit) (xs.length + 1))
          (opos + min (2 * unit) (xs.length + 1))
          (by simpa using hinp2)
          (by
            rw [memcpy_length]
            simp only [List.length_cons] at hout
            simp only [hldlen]
            omega)
          (j - min (2 * unit) (xs.length + 1))
          (by simp only [hldlen]; simp only [List.length_cons] at hj; omega)
        have hpos : opos + min (2 * unit) (xs.length + 1) +
            (j - min (2 * unit) (xs.length + 1)) = opos + j := by
          omega
        rw [hpos] at happly
        rw [happly]
        rw [hc2u] at hjc ⊢
        simp [List.getD_eq_getElem?_getD, List.getElem?_drop,
          show 2 * unit + (j - 2 * unit) = j from by omega]

/-! ## Claim theorems -/

/-- C2: at any loop state with at least 2 input bytes remaining and nonzero
output space, if the control byte is a negative signed code, then exactly
`n = min ((-code + 1) * unit) (min out_size in_size)` bytes (with `in_size`
the remaining input after the control byte) are copied verbatim from the
input position after the control byte to the current output position, and
both cursors advance by `n` while both remaining-length counters decrease
by `n`. -/
theorem C2_literal_run_step (unit : Nat) (inp : List Nat) (s : RleState)
    (h1 : 1 < s.in_size) (h2 : 0 < s.out_size)
    (h3 : int8 (inp.getD s.ipos 0) < 0)
    (hbuf : s.opos + s.out_size ≤ s.out.length) (n : Nat)
    (hn : n = min (min (((-int8 (inp.getD s.ipos 0)).toNat + 1) * unit)
      s.out_size) (s.in_size - 1)) :
    rle_run unit inp s =
      rle_run unit inp ⟨s.ipos + 1 + n, s.opos + n, s.in_size - 1 - n,
        s.out_size - n, memcpy s.out s.opos inp (s.ipos + 1) n⟩ ∧
    (∀ j, j < n →
      (memcpy s.out s.opos inp (s.ipos + 1) n).getD (s.opos + j) 0 =
        inp.getD (s.ipos + 1 + j) 0) ∧
    (∀ k, (k < s.opos ∨ s.opos + n ≤ k) →
      (memcpy s.out s.opos inp (s.ipos + 1) n).getD k 0 =
        s.out.getD k 0) := by
  subst hn
  refine ⟨rle_run_inr (rleStep_literal h1 h2 h3), ?_, ?_⟩
  · intro j hj
    exact memcpy_getD_of_mem inp _ s.out s.opos (s.ipos + 1) j hj (by omega)
  · intro k hk
    rcases hk with hk | hk
    · exact memcpy_getD_of_lt inp _ s.out s.opos (s.ipos + 1) k hk
    · exact memcpy_getD_of_ge inp _ s.out s.opos (s.ipos + 1) k hk

theorem C2_literal_run_step_witness :
    (1 : Nat) < 4 ∧ (0 : Nat) < 3 ∧
      int8 ([254, 5, 6, 7].getD 0 0) < 0 ∧ (0 : Nat) + 3 ≤ 3 ∧
      (rle_run 1 [254, 5, 6, 7] ⟨0, 0, 4, 3, [0, 0, 0]⟩ =
        rle_run 1 [254, 5, 6, 7] ⟨0 + 1 + 3, 0 + 3, 4 - 1 - 3, 3 - 3,
          memcpy [0, 0, 0] 0 [254, 5, 6, 7] (0 + 1) 3⟩ ∧
      (∀ j, j < 3 →
        (memcpy [0, 0, 0] 0 [254, 5, 6, 7] (0 + 1) 3).getD (0 + j) 0 =
          [254, 5, 6, 7].getD (0 + 1 + j) 0) ∧
      (∀ k, (k < 0 ∨ 0 + 3 ≤ k) →
        (memcpy [0, 0, 0] 0 [254, 5, 6, 7] (0 + 1) 3).getD k 0 =
          [0, 0, 0].getD k 0)) :=
  ⟨by decide, by decide, by decide, by decide,
    C2_literal_run_step 1 [254, 5, 6, 7] ⟨0, 0, 4, 3, [0, 0, 0]⟩ (by decide)
      (by decide) (by decide) (by decide) 3 (by decide)⟩

/-- C3: at any loop state with at least 2 input bytes remaining, nonzero
output space, a nonnegative control code, and at least `unit` input bytes
after the control byte, the decoder writes
`m = min (code + 1) (out_size / unit)` copies of the `unit`-byte group at
the input position after the control byte, and afterwards the input cursor
advances by exactly `unit` and the remaining input length decreases by
`unit` exactly once, regardless of how many copies were emitted. -/
theorem C3_repeat_run_step (unit : Nat) (inp : List Nat) (s : RleState)
    (h1 : 1 < s.in_size) (h2 : 0 < s.out_size)
    (h3 : 0 ≤ int8 (inp.getD s.ipos 0)) (h4 : unit ≤ s.in_size - 1)
    (hbuf : s.opos + s.out_size ≤ s.out.length) (m : Nat)
    (hm : m = min ((int8 (inp.getD s.ipos 0)).toNat + 1)
      (s.out_size / unit)) :
    rle_run unit inp s =
      rle_run unit inp ⟨s.ipos + 1 + unit, s.opos + m * unit,
        s.in_size - 1 - unit, s.out_size - m * unit,
        (repeatCopy unit inp (s.ipos + 1) s.out s.opos s.out_size
          ((int8 (inp.getD s.ipos 0)).toNat + 1)).1⟩ ∧
    (∀ i, i < m → ∀ j, j < unit →
      (repeatCopy unit inp (s.ipos + 1) s.out s.opos s.out_size
        ((int8 (inp.getD s.ipos 0)).toNat + 1)).1.getD
          (s.opos + i * unit + j) 0 = inp.getD (s.ipos + 1 + j) 0) ∧
    (∀ k, (k < s.opos ∨ s.opos + m * unit ≤ k) →
      (repeatCopy unit inp (s.ipos + 1) s.out s.opos s.out_size
        ((int8 (inp.getD s.ipos 0)).toNat + 1)).1.getD k 0 =
        s.out.getD k 0) := by
  subst hm
  refine ⟨rle_run_inr (rleStep_repeat h1 h2 h3 h4), ?_, ?_⟩
  · exact repeatCopy_getD_in unit inp (s.ipos + 1) _ s.out s.opos s.out_size
      hbuf
  · exact fun k hk => repeatCopy_getD_out unit inp (s.ipos + 1) _ s.out
      s.opos s.out_size k hk

theorem C3_repeat_run_step_witness :
    (1 : Nat) < 4 ∧ (0 : Nat) < 5 ∧
      (0 : Int) ≤ int8 ([2, 7, 8, 9].getD 0 0) ∧ (2 : Nat) ≤ 4 - 1 ∧
      (0 : Nat) + 5 ≤ 5 ∧
      (rle_run 2 [2, 7, 8, 9] ⟨0, 0, 4, 5, [0, 0, 0, 0, 0]⟩ =
        rle_run 2 [2, 7, 8, 9] ⟨0 + 1 + 2, 0 + 2 * 2, 4 - 1 - 2, 5 - 2 * 2,
          (repeatCopy 2 [2, 7, 8, 9] (0 + 1) [0, 0, 0, 0, 0] 0 5
            ((int8 ([2, 7, 8, 9].getD 0 0)).toNat + 1)).1⟩ ∧
      (∀ i, i < 2 → ∀ j, j < 2 →
        (repeatCopy 2 [2, 7, 8, 9] (0 + 1) [0, 0, 0, 0, 0] 0 5
          ((int8 ([2, 7, 8, 9].getD 0 0)).toNat + 1)).1.getD
            (0 + i * 2 + j) 0 = [2, 7, 8, 9].getD (0 + 1 + j) 0) ∧
      (∀ k, (k < 0 ∨ 0 + 2 * 2 ≤ k) →
        (repeatCopy 2 [2, 7, 8, 9] (0 + 1) [0, 0, 0, 0, 0] 0 5
          ((int8 ([2, 7, 8, 9].getD 0 0)).toNat + 1)).1.getD k 0 =
          [0, 0, 0, 0, 0].getD k 0)) :=
  ⟨by decide, by decide, by decide, by decide, by decide,
    C3_repeat_run_step 2 [2, 7, 8, 9] ⟨0, 0, 4, 5, [0, 0, 0, 0, 0]⟩
      (by decide) (by decide) (by decide) (by decide) (by decide) 2
      (by decide)⟩

/-- C7: at any loop state where the control byte read is nonnegative and
fewer than `unit` input bytes remain after it, decoding stops immediately
(exit reason `truncatedRepeat`, no error value exists to signal) and the
output buffer is returned exactly as it was, with no further bytes
written. -/
theorem C7_truncated_repeat_stops (unit : Nat) (inp : List Nat)
    (s : RleState) (h1 : 1 < s.in_size) (h2 : 0 < s.out_size)
    (h3 : 0 ≤ int8 (inp.getD s.ipos 0)) (h4 : s.in_size - 1 < unit) :
    rle_run unit inp s =
      (⟨s.ipos + 1, s.opos, s.in_size - 1, s.out_size, s.out⟩,
        .truncatedRepeat) ∧
    (rle_run unit inp s).1.out = s.out := by
  have h := rle_run_inl (rleStep_truncated h1 h2 h3 h4)
  exact ⟨h, by rw [h]⟩

theorem C7_truncated_repeat_stops_witness :
    (1 : Nat) < 3 ∧ (0 : Nat) < 4 ∧
      (0 : Int) ≤ int8 ([5, 1, 2].getD 0 0) ∧ (3 : Nat) - 1 < 4 ∧
      (rle_run 4 [5, 1, 2] ⟨0, 0, 3, 4, [9, 9, 9, 9]⟩ =
        (⟨0 + 1, 0, 3 - 1, 4, [9, 9, 9, 9]⟩, .truncatedRepeat) ∧
      (rle_run 4 [5, 1, 2] ⟨0, 0, 3, 4, [9, 9, 9, 9]⟩).1.out =
        [9, 9, 9, 9]) :=
  ⟨by decide, by decide, by decide, by decide,
    C7_truncated_repeat_stops 4 [5, 1, 2] ⟨0, 0, 3, 4, [9, 9, 9, 9]⟩
      (by decide) (by decide) (by decide) (by decide)⟩

/-- C8: with `bpp = 8` (so `unit = 2`), decoding the 6-byte stream
`[0x00, 0xAA, 0xBB, 0xFE, 0x11, 0x22]` into an 8-byte output buffer
(sentinel-filled with 9s) writes exactly `AA BB 11 22` to the first four
positions — control 0 emits one copy of `AA BB`; control -2 requests 6
literal bytes clamped to the 2 remaining, `11 22` — and leaves the last
four output bytes untouched. -/
theorem C8_end_to_end_scenario :
    rle_decode 8 [0x00, 0xAA, 0xBB, 0xFE, 0x11, 0x22]
      [9, 9, 9, 9, 9, 9, 9, 9] 6 8 =
    [0xAA, 0xBB, 0x11, 0x22, 9, 9, 9, 9] := by decide

/-- C9: the `rle_decode` loop terminates for every unit, input and output
— fuel exceeding the remaining input length (the loop runs at most
`in_size` iterations) always yields the total run's result — and the loop
exits only exhausted input (fewer than 2 bytes), full output, or a
truncated repeat run (fewer than `unit` input bytes remaining). -/
theorem C9_termination (unit fuel : Nat) (inp : List Nat) (s : RleState)
    (hfuel : s.in_size < fuel) :
    rle_runF unit inp fuel s = some (rle_run unit inp s) ∧
    ((rle_run unit inp s).2 = .inputExhausted →
      (rle_run unit inp s).1.in_size ≤ 1) ∧
    ((rle_run unit inp s).2 = .outputFull →
      (rle_run unit inp s).1.out_size = 0) ∧
    ((rle_run unit inp s).2 = .truncatedRepeat →
      (rle_run unit inp s).1.in_size < unit) :=
  ⟨rle_runF_eq_run unit inp fuel s hfuel,
    rle_run_exit_facts unit inp s.in_size s le_rfl⟩

theorem C9_termination_witness :
    (⟨0, 0, 6, 8, [9, 9, 9, 9, 9, 9, 9, 9]⟩ : RleState).in_size < 7 ∧
      (rle_runF 2 [0, 170, 187, 254, 17, 34] 7
          ⟨0, 0, 6, 8, [9, 9, 9, 9, 9, 9, 9, 9]⟩ =
        some (rle_run 2 [0, 170, 187, 254, 17, 34]
          ⟨0, 0, 6, 8, [9, 9, 9, 9, 9, 9, 9, 9]⟩) ∧
      ((rle_run 2 [0, 170, 187, 254, 17, 34]
          ⟨0, 0, 6, 8, [9, 9, 9, 9, 9, 9, 9, 9]⟩).2 = .inputExhausted →
        (rle_run 2 [0, 170, 187, 254, 17, 34]
          ⟨0, 0, 6, 8, [9, 9, 9, 9, 9, 9, 9, 9]⟩).1.in_size ≤ 1) ∧
      ((rle_run 2 [0, 170, 187, 254, 17, 34]
          ⟨0, 0, 6, 8, [9, 9, 9, 9, 9, 9, 9, 9]⟩).2 = .outputFull →
        (rle_run 2 [0, 170, 187, 254, 17, 34]
          ⟨0, 0, 6, 8, [9, 9, 9, 9, 9, 9, 9, 9]⟩).1.out_size = 0) ∧
      ((rle_run 2 [0, 170, 187, 254, 17, 34]
          ⟨0, 0, 6, 8, [9, 9, 9, 9, 9, 9, 9, 9]⟩).2 = .truncatedRepeat →
        (rle_run 2 [0, 170, 187, 254, 17, 34]
          ⟨0, 0, 6, 8, [9, 9, 9, 9, 9, 9, 9, 9]⟩).1.in_size < 2)) :=
  ⟨by decide,
    C9_termination 2 7 [0, 170, 187, 254, 17, 34]
      ⟨0, 0, 6, 8, [9, 9, 9, 9, 9, 9, 9, 9]⟩ (by decide)⟩

/-- C10: for every `bpp` and every pair of buffer lengths, `rle_decode`
writes only within the first `out_size` bytes of the output buffer (the
length is preserved and every byte at index `≥ out_size` is untouched) and
reads only within the first `in_size` bytes of the input buffer (two
inputs agreeing on those bytes decode identically). -/
theorem C10_memory_safety (bpp : Nat) (inp inp' out : List Nat)
    (in_size out_size : Nat) :
    (rle_decode bpp inp out in_size out_size).length = out.length ∧
    (∀ k, out_size ≤ k →
      (rle_decode bpp inp out in_size out_size).getD k 0 = out.getD k 0) ∧
    ((∀ j, j < in_size → inp.getD j 0 = inp'.getD j 0) →
      rle_decode bpp inp out in_size out_size =
        rle_decode bpp inp' out in_size out_size) := by
  obtain ⟨hL, hout⟩ := rle_run_out_facts (unitOf bpp) inp in_size
    ⟨0, 0, in_size, out_size, out⟩ le_rfl
  dsimp only at hL hout
  refine ⟨hL, fun k hk => hout k (Or.inr (by omega)), fun hagree => ?_⟩
  have h := rle_run_congr_inp (unitOf bpp) inp inp' in_size
    ⟨0, 0, in_size, out_size, out⟩ le_rfl
    (fun j hj => by simpa using hagree j hj)
  unfold rle_decode
  rw [h]

theorem C10_memory_safety_witness :
    rle_decode 8 [0, 170, 187, 254, 17, 34] [9, 9, 9, 9, 9, 9, 9, 9] 6 8 =
      rle_decode 8 [0, 170, 187, 254, 17, 34, 77, 88]
        [9, 9, 9, 9, 9, 9, 9, 9] 6 8 :=
  (C10_memory_safety 8 [0, 170, 187, 254, 17, 34]
    [0, 170, 187, 254, 17, 34, 77, 88] [9, 9, 9, 9, 9, 9, 9, 9] 6 8).2.2
    (by decide)

/-- C1: code-bug evidence.  When `service_connect` succeeds
(`connect_ret = 0`) and the trigger-byte write fails (`write_ret = -1`),
`nspire_screenshot` returns the write error immediately
(`screenshot.c:75-76` is `return ret`, not `goto end`) — the operation
trace is exactly `[connect, write 0]` and contains no `disconnect`,
contradicting the claim that every exit path after a successful connect
disconnects before returning. -/
theorem C1_write_failure_no_disconnect :
    nspire_screenshot ⟨0, -1, [], 16⟩ =
      (.error (-1), [.connect, .write 0]) ∧
    TOp.disconnect ∉ (nspire_screenshot ⟨0, -1, [], 16⟩).2 :=
  ⟨rfl, by decide⟩

/-- C4: for every declared size and every sequence of successfully read
fixed-size packets (each of the transport's full packet size
`maxsize + 1`), a successful reassembly consumes
`min remaining maxsize` bytes per packet starting at byte offset 1, and
the assembled buffer has length exactly the declared size and equals the
in-order concatenation of the packets' data bytes (everything after the
leading byte) truncated to the declared size. -/
theorem C4_reassembly (maxsize size : Nat) (ps : List (List Nat))
    (buf : List Nat) (k : Nat)
    (hread : readLoop maxsize (ps.map some) size = (some buf, k))
    (hlen : ∀ p ∈ ps, p.length = maxsize + 1) :
    buf.length = size ∧
      buf = List.take size (List.flatten (ps.map (List.drop 1))) :=
  readLoop_spec maxsize ps size buf k hread hlen

theorem C4_reassembly_witness :
    readLoop 3 ([[9, 1, 2, 3], [9, 4, 5, 6]].map some) 5 =
        (some [1, 2, 3, 4, 5], 2) ∧
      (∀ p ∈ [[9, 1, 2, 3], [9, 4, 5, 6]], p.length = 3 + 1) ∧
      ([1, 2, 3, 4, 5] : List Nat).length = 5 ∧
      [1, 2, 3, 4, 5] = List.take 5
        (List.flatten ([[9, 1, 2, 3], [9, 4, 5, 6]].map (List.drop 1))) :=
  ⟨by decide, by decide,
    C4_reassembly 3 5 [[9, 1, 2, 3], [9, 4, 5, 6]] [1, 2, 3, 4, 5] 2
      (by decide) (by decide)⟩

/-- C5: counterexample to the round trip at `bits_per_pixel = 1`.  With
`bpp = 1` the unit is `(1 * 2) / 8 = 0`, so a literal run decodes to
`(-code + 1) * 0 = 0` bytes: decoding the literal-run encoding of `[7]`
into a 1-byte output buffer leaves the buffer untouched instead of
reproducing `[7]`. -/
theorem C5_roundtrip_counterexample :
    rle_decode 1 (rle_encode (unitOf 1) [7]) (List.replicate 1 0)
      (rle_encode (unitOf 1) [7]).length 1 ≠ [7] := by decide

/-- C5 (amended): for every raw byte buffer and every `bits_per_pixel` in
{4, 8, 16} (those of the claimed set with a nonzero two-pixel unit),
encoding the buffer as literal runs and decoding it with `rle_decode` into
an output buffer of the original length reproduces the original bytes
exactly. -/
theorem C5_literal_roundtrip (bpp : Nat)
    (hbpp : bpp = 4 ∨ bpp = 8 ∨ bpp = 16) (l : List Nat) :
    rle_decode bpp (rle_encode (unitOf bpp) l) (List.replicate l.length 0)
      (rle_encode (unitOf bpp) l).length l.length = l := by
  have hu : 0 < unitOf bpp := by
    rcases hbpp with h | h | h <;> subst h <;> decide
  have hlen := (rle_run_out_facts (unitOf bpp) (rle_encode (unitOf bpp) l)
    (rle_encode (unitOf bpp) l).length
    ⟨0, 0, (rle_encode (unitOf bpp) l).length, l.length,
      List.replicate l.length 0⟩ le_rfl).1
  dsimp only at hlen
  rw [List.length_replicate] at hlen
  refine List.ext_getElem ?_ ?_
  · simpa only [rle_decode] using hlen
  · intro i h1 h2
    simp only [rle_decode] at h1 ⊢
    rw [← List.getD_eq_getElem _ 0 h1, ← List.getD_eq_getElem _ 0 h2]
    have := rle_roundtrip_aux (unitOf bpp) hu l.length l le_rfl
      (rle_encode (unitOf bpp) l) (List.replicate l.length 0) 0 0
      (fun j _ => by rw [Nat.zero_add]) (by simp) i h2
    simpa using this

theorem C5_literal_roundtrip_witness :
    ((8 : Nat) = 4 ∨ (8 : Nat) = 8 ∨ (8 : Nat) = 16) ∧
      rle_decode 8 (rle_encode (unitOf 8) [1, 2, 3, 4, 5])
        (List.replicate ([1, 2, 3, 4, 5] : List Nat).length 0)
        (rle_encode (unitOf 8) [1, 2, 3, 4, 5]).length
        ([1, 2, 3, 4, 5] : List Nat).length = [1, 2, 3, 4, 5] :=
  ⟨by decide, C5_literal_roundtrip 8 (by decide) [1, 2, 3, 4, 5]⟩

/-- C6: counterexample to the claimed layout.  In the format string
`"bwhhhhbb"` of `screenshot.c:81` only two 16-bit fields are discarded
before width, so width is read at byte offset 9 and height at offset 11 —
not offsets 11 and 13.  On a packet whose bytes at offsets 9-10, 11-12 and
13 are distinct values 1, 2 and 8, the scan yields width 1 and height 2,
while the claimed offsets would yield 2 and 8. -/
theorem C6_header_offsets_counterexample :
    ¬ ((scan_bwhhhhbb
        [0, 10, 0, 0, 0, 0, 0, 0, 0, 1, 0, 2, 0, 8, 0]).map
          (fun r => (r.2.1, r.2.2.1)) =
      some (le16 [0, 10, 0, 0, 0, 0, 0, 0, 0, 1, 0, 2, 0, 8, 0] 11,
        le16 [0, 10, 0, 0, 0, 0, 0, 0, 0, 1, 0, 2, 0, 8, 0] 13)) := by
  decide

/-- C6 (amended): the header decoder parses the first response packet as
one ignored opcode/status byte, a little-endian 32-bit total payload size,
TWO ignored 16-bit fields, a little-endian 16-bit width (byte offset 9), a
little-endian 16-bit height (byte offset 11), an 8-bit bits-per-pixel
value (offset 13), and one trailing ignored byte (offset 14). -/
theorem C6_header_layout (s0 size r1 r2 w h bpp r3 : Nat) (rest : List Nat)
    (hsize : size < 4294967296) (hw : w < 65536) (hh : h < 65536)
    (hbpp : bpp < 256) :
    scan_bwhhhhbb ([s0] ++ toLE32 size ++ toLE16 r1 ++ toLE16 r2 ++
        toLE16 w ++ toLE16 h ++ [bpp, r3] ++ rest) =
      some (size, w, h, bpp) := by
  simp only [toLE32, toLE16, List.cons_append, List.nil_append]
  rw [scan_bwhhhhbb]
  rw [if_neg (by simp only [List.length_cons]; omega)]
  simp [le32, le16, List.getD_eq_getElem?_getD, Option.some.injEq,
    Prod.mk.injEq]
  try omega

theorem C6_header_layout_witness :
    (10 : Nat) < 4294967296 ∧ (4 : Nat) < 65536 ∧ (2 : Nat) < 65536 ∧
      (8 : Nat) < 256 ∧
      scan_bwhhhhbb ([0] ++ toLE32 10 ++ toLE16 0 ++ toLE16 0 ++
          toLE16 4 ++ toLE16 2 ++ [8, 0] ++ []) = some (10, 4, 2, 8) :=
  ⟨by decide, by decide, by decide, by decide,
    C6_header_layout 0 10 0 0 4 2 8 0 [] (by decide) (by decide) (by decide)
      (by decide)⟩

end Screenshot
